import Mathlib

/-!
# Verification of the department-vulnerability dashboard core

Shallow embedding, over `ℚ`, of the data-transformation core of the
Streamlit dashboard (files `my_pages/mortalite_65_plus.py`,
`my_pages/synthese.py`, `my_pages/mortalite_0_64.py`, `my_pages/pauvrete.py`):

* the z-score normalisation performed by `sklearn.preprocessing.StandardScaler`
  (`mortalite_65_plus.py` lines 202-205): per column, subtract the mean and
  divide by the population standard deviation (`ddof = 0`); sklearn replaces a
  zero scale (zero-variance column) by 1, so a constant column is mapped to the
  centred column, i.e. all zeros, with no error raised;
* the polarity inversion `df_z["apl_med_z"] *= -1`, `df_z["apl_inf_z"] *= -1`
  (lines 207-208);
* the senior composite `df_z["score_senior"] = df_z[score_cols].sum(axis=1).round(3)`
  (lines 211-217), where `.round(3)` is numpy rounding, half-to-even;
* the `dropna(subset=[...])` row filter at load time (lines 31-33) and the
  merge producing the score table (line 220);
* `classify_color` of `synthese.py` (lines 50-66): bounds
  `[-inf] + thresholds + [inf]`, first interval `bounds[i] < v <= bounds[i+1]`
  wins, fallback colour `[0, 0, 0, 0]`; a missing (NaN) value fails every
  comparison, exactly as NaN does in Python;
* `load_ind` of `synthese.py` (lines 27-43): rename plus code clean-up,
  no validation whatsoever;
* the `nlargest` rankings (`mortalite_65_plus.py` lines 61-64 and 242-246);
  pandas `nlargest` with the default `keep='first'` is a stable descending
  sort followed by `head(n)`;
* the 3-D bar elevation `(mort_premat - min) / (max - min) * 100_000`
  (`synthese.py` lines 99-101).

Real numbers only enter the source through `sqrt` inside the standard
deviation.  The embedding therefore takes the standard deviation as an extra
parameter `s` constrained by `s ^ 2 = popVar xs ∧ 0 < s`, keeping every
definition computable over `ℚ`.
-/

/-! ## Normaliser (`StandardScaler`, `mortalite_65_plus.py` lines 202-208) -/

/-- Mean of a column, `Σx / n`.  For the empty column this is `0 / 0 = 0` in
`ℚ`; the source never normalises an empty column. -/
def mean (xs : List ℚ) : ℚ := xs.sum / xs.length

/-- Population variance of a column: `Σ (x - mean)² / n`, divisor `n`
(`ddof = 0`), exactly what `StandardScaler` computes. -/
def popVar (xs : List ℚ) : ℚ :=
  ((xs.map fun x => (x - mean xs) ^ 2).sum) / xs.length

/-- One column of `scaler.fit_transform` (`mortalite_65_plus.py` line 204).
`StandardScaler` centres the column and divides by
`scale = _handle_zeros_in_scale(sqrt(var))`, which replaces a zero standard
deviation by `1`.  The parameter `s` stands for the (possibly irrational)
standard deviation `sqrt (popVar xs)`; the zero-variance branch does not
need it. -/
def fit_transform (xs : List ℚ) (s : ℚ) : List ℚ :=
  if popVar xs = 0 then xs.map (fun x => x - mean xs)
  else xs.map (fun x => (x - mean xs) / s)

theorem sum_map_sub_const (xs : List ℚ) (c : ℚ) :
    (xs.map fun x => x - c).sum = xs.sum - xs.length * c := by
  induction xs with
  | nil => simp
  | cons x xs ih => simp [ih]; ring

theorem sum_map_div_const (xs : List ℚ) (c : ℚ) :
    (xs.map fun x => x / c).sum = xs.sum / c := by
  induction xs with
  | nil => simp
  | cons x xs ih => simp [ih]; ring

theorem length_fit_transform (xs : List ℚ) (s : ℚ) :
    (fit_transform xs s).length = xs.length := by
  unfold fit_transform; split <;> simp

theorem popVar_nonzero_ne_nil {xs : List ℚ} (h : popVar xs ≠ 0) : xs ≠ [] := by
  intro hnil; subst hnil; simp [popVar] at h

theorem length_pos_of_popVar_nonzero {xs : List ℚ} (h : popVar xs ≠ 0) :
    (0 : ℚ) < xs.length := by
  have hne := popVar_nonzero_ne_nil h
  have : 0 < xs.length := List.length_pos.mpr hne
  exact_mod_cast this

/-- Mean of the centred column is `0`. -/
theorem mean_centered (xs : List ℚ) (hn : (xs.length : ℚ) ≠ 0) :
    mean (xs.map fun x => x - mean xs) = 0 := by
  simp only [mean, List.length_map, sum_map_sub_const]
  rw [mul_div_cancel₀ _ hn]
  simp

/-- Mean of the z-scored column is `0`. -/
theorem mean_zscores (xs : List ℚ) (s : ℚ) (hn : (xs.length : ℚ) ≠ 0) :
    mean (xs.map fun x => (x - mean xs) / s) = 0 := by
  have hsplit : (xs.map fun x => (x - mean xs) / s)
      = (xs.map fun x => x - mean xs).map (fun y => y / s) := by
    simp [List.map_map, Function.comp]
  simp only [mean, List.length_map] at hsplit ⊢
  rw [hsplit, sum_map_div_const, sum_map_sub_const, mul_div_cancel₀ _ hn]
  simp

/-- Population variance of the z-scored column is `1` whenever `s` really is
the (nonzero) population standard deviation. -/
theorem popVar_zscores (xs : List ℚ) (s : ℚ) (hs : 0 < s)
    (hv : s ^ 2 = popVar xs) :
    popVar (xs.map fun x => (x - mean xs) / s) = 1 := by
  have hvpos : 0 < popVar xs := by rw [← hv]; positivity
  have hn : (xs.length : ℚ) ≠ 0 := by
    have h := length_pos_of_popVar_nonzero (ne_of_gt hvpos)
    exact ne_of_gt h
  have hmean0 := mean_zscores xs s hn
  unfold popVar
  rw [hmean0, List.length_map]
  have hmap : ((xs.map fun x => (x - mean xs) / s).map fun z => (z - 0) ^ 2)
      = xs.map (fun x => ((x - mean xs) ^ 2) / s ^ 2) := by
    simp only [List.map_map]
    refine List.map_congr_left ?_
    intro a _
    simp [Function.comp, div_pow]
  rw [hmap]
  have : (xs.map fun x => ((x - mean xs) ^ 2) / s ^ 2)
      = (xs.map fun x => (x - mean xs) ^ 2).map (fun y => y / s ^ 2) := by
    simp [List.map_map, Function.comp]
  rw [this, sum_map_div_const]
  have hvar : ((xs.map fun x => (x - mean xs) ^ 2).sum) = popVar xs * xs.length := by
    unfold popVar
    field_simp
  rw [hvar, ← hv]
  have hs2 : (s : ℚ) ^ 2 ≠ 0 := by positivity
  field_simp

/-- Claim C1: for an indicator column with more than one distinct present
value (hence nonzero variance), the normalisation step of
`mortalite_65_plus.py` (lines 202-205, `StandardScaler`) computes
`z = (x - mean) / stddev` with the population standard deviation (divisor
`n`), and the resulting column has mean exactly `0` and population variance
exactly `1` — in particular mean `0` and population standard deviation `1`
within tolerance `1e-9`.  The parameter `s` is the population standard
deviation, characterised by `s ^ 2 = popVar xs ∧ 0 < s`. -/
theorem C1_normalization_mean_var (xs : List ℚ) (s : ℚ)
    (hdist : ∃ a ∈ xs, ∃ b ∈ xs, a ≠ b)
    (hs : 0 < s) (hv : s ^ 2 = popVar xs) :
    fit_transform xs s = xs.map (fun x => (x - mean xs) / s)
      ∧ mean (fit_transform xs s) = 0
      ∧ popVar (fit_transform xs s) = 1 := by
  have hvpos : 0 < popVar xs := by rw [← hv]; positivity
  have hform : fit_transform xs s = xs.map (fun x => (x - mean xs) / s) := by
    unfold fit_transform
    rw [if_neg (ne_of_gt hvpos)]
  have hn : (xs.length : ℚ) ≠ 0 :=
    ne_of_gt (length_pos_of_popVar_nonzero (ne_of_gt hvpos))
  refine ⟨hform, ?_, ?_⟩
  · rw [hform]; exact mean_zscores xs s hn
  · rw [hform]; exact popVar_zscores xs s hs hv

/-- Concrete instance of C1: the column `[0, 2]` has mean `1`, population
variance `1` and standard deviation `1`; its z-scores `[-1, 1]` have mean `0`
and population variance `1`. -/
theorem C1_normalization_mean_var_witness :
    fit_transform [(0 : ℚ), 2] 1 = [-1, 1]
      ∧ mean (fit_transform [(0 : ℚ), 2] 1) = 0
      ∧ popVar (fit_transform [(0 : ℚ), 2] 1) = 1 := by
  have h := C1_normalization_mean_var [(0 : ℚ), 2] 1
    ⟨0, by simp, 2, by simp, by norm_num⟩
    (by norm_num)
    (by norm_num [popVar, mean])
  refine ⟨?_, h.2.1, h.2.2⟩
  rw [h.1]
  norm_num [mean]

/-! ## Polarity inversion (`mortalite_65_plus.py` lines 207-208)

`df_z["apl_med_z"] *= -1` and `df_z["apl_inf_z"] *= -1` negate every z-score
of the two `higher_is_better` APL indicators. -/

/-- A `higher_is_better` column after normalisation: z-scores, then negation
(the literal `*= -1` of lines 207-208). -/
def invert_z (xs : List ℚ) (s : ℚ) : List ℚ :=
  (fit_transform xs s).map Neg.neg

/-- Claim C2: for a `higher_is_better` indicator (the APL columns, whose
z-scores are negated by lines 207-208), the department holding the maximum
raw value `m` receives the minimum (most negative) normalised value: the
image of `m` is a member of the inverted column and a lower bound of it.
For a `higher_is_worse` indicator (no negation) the image of `m` is a member
and an upper bound of the plain z-scored column. -/
theorem C2_polarity_inversion (xs : List ℚ) (s : ℚ) (m : ℚ)
    (hs : 0 < s) (hv : s ^ 2 = popVar xs)
    (hm : m ∈ xs) (hmax : ∀ a ∈ xs, a ≤ m) :
    ((-((m - mean xs) / s)) ∈ invert_z xs s
        ∧ ∀ z ∈ invert_z xs s, -((m - mean xs) / s) ≤ z)
      ∧ (((m - mean xs) / s) ∈ fit_transform xs s
        ∧ ∀ z ∈ fit_transform xs s, z ≤ (m - mean xs) / s) := by
  have hvpos : 0 < popVar xs := by rw [← hv]; positivity
  have hform : fit_transform xs s = xs.map (fun x => (x - mean xs) / s) := by
    unfold fit_transform
    rw [if_neg (ne_of_gt hvpos)]
  have hub : ∀ z ∈ fit_transform xs s, z ≤ (m - mean xs) / s := by
    intro z hz
    rw [hform] at hz
    obtain ⟨a, ha, rfl⟩ := List.mem_map.mp hz
    have := hmax a ha
    exact div_le_div_of_nonneg_right (by linarith) hs.le
  have hmem : ((m - mean xs) / s) ∈ fit_transform xs s := by
    rw [hform]
    exact List.mem_map.mpr ⟨m, hm, rfl⟩
  refine ⟨⟨?_, ?_⟩, hmem, hub⟩
  · exact List.mem_map.mpr ⟨_, hmem, rfl⟩
  · intro z hz
    obtain ⟨w, hw, rfl⟩ := List.mem_map.mp hz
    have := hub w hw
    exact neg_le_neg this

/-- Concrete instance of C2 on the column `[0, 2]` (std `1`, max `2`): the
inverted z-score of the maximum, `-1`, is a member and lower bound of the
inverted column, while its plain z-score `1` is a member and upper bound of
the plain column. -/
theorem C2_polarity_inversion_witness :
    ((-(((2 : ℚ) - mean [0, 2]) / 1)) ∈ invert_z [(0 : ℚ), 2] 1
        ∧ ∀ z ∈ invert_z [(0 : ℚ), 2] 1, -(((2 : ℚ) - mean [0, 2]) / 1) ≤ z)
      ∧ ((((2 : ℚ) - mean [0, 2]) / 1) ∈ fit_transform [(0 : ℚ), 2] 1
        ∧ ∀ z ∈ fit_transform [(0 : ℚ), 2] 1, z ≤ ((2 : ℚ) - mean [0, 2]) / 1) :=
  C2_polarity_inversion [(0 : ℚ), 2] 1 2 (by norm_num)
    (by norm_num [popVar, mean]) (by simp)
    (by intro a ha; fin_cases ha <;> norm_num)

/-! ## Senior composite score (`mortalite_65_plus.py` lines 202-217)

`features = ["mortalite_65_plus", "apl_med", "apl_inf", "taux_pauvrete"]`;
the four columns are z-scored by `StandardScaler`, the two APL z-columns are
negated, and
`df_z["score_senior"] = df_z[score_cols].sum(axis=1).round(3)`. -/

/-- A data row that survived
`dropna(subset=["mortalite_65_plus", "apl_med", "apl_inf", "taux_pauvrete"])`
(lines 31-33): the four indicators are present. -/
structure SRow where
  code : String
  mortalite_65_plus : ℚ
  apl_med : ℚ
  apl_inf : ℚ
  taux_pauvrete : ℚ
deriving DecidableEq

/-- Row-wise sum of four columns, `df_z[score_cols].sum(axis=1)`. -/
def sumRows (a b c d : List ℚ) : List ℚ :=
  List.zipWith (· + ·) (List.zipWith (· + ·) (List.zipWith (· + ·) a b) c) d

/-- Round-half-to-even to an integer (numpy/pandas `round`). -/
def roundHalfEven (q : ℚ) : ℤ :=
  if q - ⌊q⌋ = 1 / 2 then (if ⌊q⌋ % 2 = 0 then ⌊q⌋ else ⌊q⌋ + 1)
  else round q

/-- `Series.round(3)`: numpy half-to-even rounding at the third decimal. -/
def round3 (q : ℚ) : ℚ := (roundHalfEven (q * 1000) : ℚ) / 1000

/-- The senior composite (`mortalite_65_plus.py` lines 202-217): z-score the
four feature columns (`s1 … s4` are their population standard deviations),
negate the two APL z-columns, sum row-wise, round to 3 decimals. -/
def score_senior (rows : List SRow) (s1 s2 s3 s4 : ℚ) : List ℚ :=
  (sumRows
      (fit_transform (rows.map (·.mortalite_65_plus)) s1)
      ((fit_transform (rows.map (·.apl_med)) s2).map Neg.neg)
      ((fit_transform (rows.map (·.apl_inf)) s3).map Neg.neg)
      (fit_transform (rows.map (·.taux_pauvrete)) s4)).map round3

theorem zipWith_map_same {α β γ δ : Type} (f : β → γ → δ) (g : α → β) (h : α → γ)
    (l : List α) :
    List.zipWith f (l.map g) (l.map h) = l.map (fun x => f (g x) (h x)) := by
  induction l with
  | nil => simp
  | cons x l ih => simp [ih]

theorem length_score_senior (rows : List SRow) (s1 s2 s3 s4 : ℚ) :
    (score_senior rows s1 s2 s3 s4).length = rows.length := by
  simp [score_senior, sumRows, length_fit_transform]

/-- Pointwise form of the senior composite: under nonzero variances every
department's score is the 3-decimal rounding of the unweighted sum of its
four polarity-corrected z-scores. -/
theorem score_senior_pointwise (rows : List SRow) (s1 s2 s3 s4 : ℚ)
    (h1 : popVar (rows.map (·.mortalite_65_plus)) ≠ 0)
    (h2 : popVar (rows.map (·.apl_med)) ≠ 0)
    (h3 : popVar (rows.map (·.apl_inf)) ≠ 0)
    (h4 : popVar (rows.map (·.taux_pauvrete)) ≠ 0) :
    score_senior rows s1 s2 s3 s4 = rows.map (fun r => round3
      ((r.mortalite_65_plus - mean (rows.map (·.mortalite_65_plus))) / s1
        + -((r.apl_med - mean (rows.map (·.apl_med))) / s2)
        + -((r.apl_inf - mean (rows.map (·.apl_inf))) / s3)
        + (r.taux_pauvrete - mean (rows.map (·.taux_pauvrete))) / s4)) := by
  unfold score_senior sumRows
  rw [fit_transform, if_neg h1, fit_transform, if_neg h2,
    fit_transform, if_neg h3, fit_transform, if_neg h4]
  simp only [List.map_map]
  rw [zipWith_map_same, zipWith_map_same, zipWith_map_same]
  simp [Function.comp]

/-- Claim C3 (amended): for every department the senior composite is the
3-decimal rounding of the plain unweighted sum of exactly four
polarity-corrected normalised indicators — mortality 65+, APL doctors
(negated), APL nurses (negated), poverty rate — with coefficient `1` on each
constituent.  (The claim as frozen omits the `.round(3)` of line 217; see the
counterexample.) -/
theorem C3_composite_sum (rows : List SRow) (s1 s2 s3 s4 : ℚ) (i : ℕ) (r : SRow)
    (h1 : popVar (rows.map (·.mortalite_65_plus)) ≠ 0)
    (h2 : popVar (rows.map (·.apl_med)) ≠ 0)
    (h3 : popVar (rows.map (·.apl_inf)) ≠ 0)
    (h4 : popVar (rows.map (·.taux_pauvrete)) ≠ 0)
    (hi : rows[i]? = some r) :
    (score_senior rows s1 s2 s3 s4)[i]? = some (round3
      ((r.mortalite_65_plus - mean (rows.map (·.mortalite_65_plus))) / s1
        + -((r.apl_med - mean (rows.map (·.apl_med))) / s2)
        + -((r.apl_inf - mean (rows.map (·.apl_inf))) / s3)
        + (r.taux_pauvrete - mean (rows.map (·.taux_pauvrete))) / s4)) := by
  rw [score_senior_pointwise rows s1 s2 s3 s4 h1 h2 h3 h4]
  rw [List.getElem?_map, hi]
  rfl

/-- Two-department toy table for the C3 witness. -/
def rowsW : List SRow :=
  [⟨"01", 0, 0, 0, 0⟩, ⟨"02", 2, 2, 2, 2⟩]

/-- Concrete instance of the amended C3 on `rowsW` (all four columns are
`[0, 2]`, std `1`): department "01" scores `round3 ((-1) + 1 + 1 + (-1)) = 0`. -/
theorem C3_composite_sum_witness :
    (score_senior rowsW 1 1 1 1)[0]? = some (round3
      (((0 : ℚ) - mean (rowsW.map (·.mortalite_65_plus))) / 1
        + -(((0 : ℚ) - mean (rowsW.map (·.apl_med))) / 1)
        + -(((0 : ℚ) - mean (rowsW.map (·.apl_inf))) / 1)
        + ((0 : ℚ) - mean (rowsW.map (·.taux_pauvrete))) / 1)) :=
  C3_composite_sum rowsW 1 1 1 1 0 ⟨"01", 0, 0, 0, 0⟩
    (by norm_num [rowsW, popVar, mean])
    (by norm_num [rowsW, popVar, mean])
    (by norm_num [rowsW, popVar, mean])
    (by norm_num [rowsW, popVar, mean])
    rfl

/-- 13-department table refuting the unrounded reading of C3: in each column
nine departments share one value and four share another, so every z-score is
`2/3` or `-3/2` and the row-0 sum of the four polarity-corrected z-scores is
`8/3`, which is not a multiple of `1/1000`. -/
def rowsCex : List SRow :=
  [⟨"01", 1, 0, 0, 1⟩, ⟨"02", 1, 0, 0, 1⟩, ⟨"03", 1, 0, 0, 1⟩,
   ⟨"04", 1, 0, 0, 1⟩, ⟨"05", 1, 0, 0, 1⟩, ⟨"06", 1, 0, 0, 1⟩,
   ⟨"07", 1, 0, 0, 1⟩, ⟨"08", 1, 0, 0, 1⟩, ⟨"09", 1, 0, 0, 1⟩,
   ⟨"10", 0, 1, 1, 0⟩, ⟨"11", 0, 1, 1, 0⟩, ⟨"12", 0, 1, 1, 0⟩,
   ⟨"13", 0, 1, 1, 0⟩]

/-- Counterexample to claim C3 as stated: on `rowsCex`, with the true
population standard deviation `6/13` of every column, the pipeline's
`score_senior` for department "01" is `2.667`, while the plain unweighted sum
of its four polarity-corrected normalised indicators is `8/3 ≠ 2.667`: line
217 rounds the sum to 3 decimals, so the score does not equal the sum. -/
theorem C3_composite_sum_counterexample :
    ((6 / 13 : ℚ) ^ 2 = popVar (rowsCex.map (·.mortalite_65_plus))
      ∧ (6 / 13 : ℚ) ^ 2 = popVar (rowsCex.map (·.apl_med))
      ∧ (6 / 13 : ℚ) ^ 2 = popVar (rowsCex.map (·.apl_inf))
      ∧ (6 / 13 : ℚ) ^ 2 = popVar (rowsCex.map (·.taux_pauvrete)))
    ∧ (score_senior rowsCex (6/13) (6/13) (6/13) (6/13))[0]? = some (2667 / 1000)
    ∧ (sumRows
        (fit_transform (rowsCex.map (·.mortalite_65_plus)) (6/13))
        ((fit_transform (rowsCex.map (·.apl_med)) (6/13)).map Neg.neg)
        ((fit_transform (rowsCex.map (·.apl_inf)) (6/13)).map Neg.neg)
        (fit_transform (rowsCex.map (·.taux_pauvrete)) (6/13)))[0]? = some (8 / 3)
    ∧ (2667 / 1000 : ℚ) ≠ 8 / 3 := by
  have hm1 : mean (rowsCex.map (·.mortalite_65_plus)) = 9 / 13 := by
    norm_num [rowsCex, mean]
  have hm2 : mean (rowsCex.map (·.apl_med)) = 4 / 13 := by
    norm_num [rowsCex, mean]
  have hm3 : mean (rowsCex.map (·.apl_inf)) = 4 / 13 := by
    norm_num [rowsCex, mean]
  have hm4 : mean (rowsCex.map (·.taux_pauvrete)) = 9 / 13 := by
    norm_num [rowsCex, mean]
  have hv1 : popVar (rowsCex.map (·.mortalite_65_plus)) = 36 / 169 := by
    norm_num [popVar, mean, rowsCex]
  have hv2 : popVar (rowsCex.map (·.apl_med)) = 36 / 169 := by
    norm_num [popVar, mean, rowsCex]
  have hv3 : popVar (rowsCex.map (·.apl_inf)) = 36 / 169 := by
    norm_num [popVar, mean, rowsCex]
  have hv4 : popVar (rowsCex.map (·.taux_pauvrete)) = 36 / 169 := by
    norm_num [popVar, mean, rowsCex]
  have hr : round3 (8 / 3) = 2667 / 1000 := by
    have hfl : (⌊(8 / 3 : ℚ) * 1000⌋ : ℤ) = 2666 := by
      rw [Int.floor_eq_iff]
      norm_num
    have hfr : (⌊(8 / 3 : ℚ) * 1000 + 1 / 2⌋ : ℤ) = 2667 := by
      rw [Int.floor_eq_iff]
      norm_num
    rw [round3, roundHalfEven, hfl, if_neg (by norm_num), round_eq, hfr]
    norm_num
  have hz1 : fit_transform (rowsCex.map (·.mortalite_65_plus)) (6 / 13)
      = (rowsCex.map (·.mortalite_65_plus)).map (fun x => (x - 9 / 13) / (6 / 13)) := by
    rw [fit_transform, if_neg (by rw [hv1]; norm_num), hm1]
  have hz2 : fit_transform (rowsCex.map (·.apl_med)) (6 / 13)
      = (rowsCex.map (·.apl_med)).map (fun x => (x - 4 / 13) / (6 / 13)) := by
    rw [fit_transform, if_neg (by rw [hv2]; norm_num), hm2]
  have hz3 : fit_transform (rowsCex.map (·.apl_inf)) (6 / 13)
      = (rowsCex.map (·.apl_inf)).map (fun x => (x - 4 / 13) / (6 / 13)) := by
    rw [fit_transform, if_neg (by rw [hv3]; norm_num), hm3]
  have hz4 : fit_transform (rowsCex.map (·.taux_pauvrete)) (6 / 13)
      = (rowsCex.map (·.taux_pauvrete)).map (fun x => (x - 9 / 13) / (6 / 13)) := by
    rw [fit_transform, if_neg (by rw [hv4]; norm_num), hm4]
  refine ⟨⟨by rw [hv1]; norm_num, by rw [hv2]; norm_num,
    by rw [hv3]; norm_num, by rw [hv4]; norm_num⟩, ?_, ?_, by norm_num⟩
  · rw [score_senior, sumRows, hz1, hz2, hz3, hz4]
    simp only [rowsCex, List.map_cons, List.map_nil, List.zipWith_cons_cons,
      List.zipWith_nil_right, List.getElem?_map, List.getElem?_cons_zero,
      Option.map_some]
    norm_num [hr]
  · rw [sumRows, hz1, hz2, hz3, hz4]
    simp only [rowsCex, List.map_cons, List.map_nil, List.zipWith_cons_cons,
      List.zipWith_nil_right, List.getElem?_cons_zero]
    norm_num

/-! ## Degenerate (zero-variance) columns (claim C4) -/

theorem mean_const (xs : List ℚ) (c : ℚ) (hne : xs ≠ [])
    (h : ∀ x ∈ xs, x = c) : mean xs = c := by
  have hsum : xs.sum = xs.length * c := by
    induction xs with
    | nil => simp
    | cons y ys ih =>
      have hy : y = c := h y (by simp)
      by_cases hys : ys = []
      · subst hys; simp [hy]
      · have := ih hys (fun x hx => h x (by simp [hx]))
        simp [hy, this]
        ring
  have hn : (xs.length : ℚ) ≠ 0 := by
    have : 0 < xs.length := List.length_pos.mpr hne
    exact_mod_cast Nat.pos_iff_ne_zero.mp this
  unfold mean
  rw [hsum, mul_comm, mul_div_assoc, div_self hn, mul_one]

theorem popVar_const (xs : List ℚ) (c : ℚ) (h : ∀ x ∈ xs, x = c) :
    popVar xs = 0 := by
  by_cases hne : xs = []
  · subst hne; simp [popVar]
  · have hm := mean_const xs c hne h
    unfold popVar
    have : (xs.map fun x => (x - mean xs) ^ 2) = xs.map (fun _ => 0) := by
      refine List.map_congr_left ?_
      intro a ha
      rw [h a ha, hm]
      ring
    rw [this]
    simp

/-- Claim C4 (amended): a column with identical values for all departments
(zero variance) is normalised by `StandardScaler` to the all-zero column —
sklearn substitutes `1` for the zero scale — and no error of any kind is
raised; no `DegenerateIndicatorError` exists anywhere in the source. -/
theorem C4_degenerate_column (xs : List ℚ) (c s : ℚ) (h : ∀ x ∈ xs, x = c) :
    fit_transform xs s = List.replicate xs.length 0 := by
  have hv := popVar_const xs c h
  unfold fit_transform
  rw [if_pos hv]
  rw [List.eq_replicate_iff]
  constructor
  · simp
  · intro b hb
    obtain ⟨a, ha, rfl⟩ := List.mem_map.mp hb
    by_cases hne : xs = []
    · subst hne; simp at ha
    · rw [h a ha, mean_const xs c hne h]; ring

/-- Counterexample to claim C4 as stated: the constant column `[15, 15, 15]`
(population variance `0`, standard deviation `0`) is transformed to the
numeric column `[0, 0, 0]` — the pipeline silently produces numeric output
instead of raising a `DegenerateIndicatorError`. -/
theorem C4_degenerate_column_counterexample :
    popVar [(15 : ℚ), 15, 15] = 0
      ∧ fit_transform [(15 : ℚ), 15, 15] 0 = [0, 0, 0] := by
  have hv : popVar [(15 : ℚ), 15, 15] = 0 := by
    norm_num [popVar, mean]
  refine ⟨hv, ?_⟩
  rw [fit_transform, if_pos hv]
  norm_num [mean]

/-- Concrete instance of the amended C4: the constant column `[15, 15, 15]`
maps to `replicate 3 0`. -/
theorem C4_degenerate_column_witness :
    fit_transform [(15 : ℚ), 15, 15] 0 = List.replicate 3 0 :=
  C4_degenerate_column [15, 15, 15] 15 0
    (by intro x hx; fin_cases hx <;> rfl)

/-! ## Missing-value exclusion (claim C8)

`mortalite_65_plus.py` lines 31-33 drop at load time every row with a
missing constituent
(`dropna(subset=["mortalite_65_plus", "apl_med", "apl_inf", "taux_pauvrete"])`);
the composite of lines 202-220 is computed on, and merged back onto, that
filtered table only. -/

/-- A raw CSV row: the four senior-composite constituents may be missing. -/
structure RawRow where
  code : String
  departement : String
  mortalite_65_plus : Option ℚ
  apl_med : Option ℚ
  apl_inf : Option ℚ
  taux_pauvrete : Option ℚ
deriving DecidableEq

/-- `df.dropna(subset=["mortalite_65_plus", "apl_med", "apl_inf", "taux_pauvrete"])`
(lines 31-33): keep exactly the rows whose four constituents are present. -/
def dropna (rows : List RawRow) : List SRow :=
  rows.filterMap fun r =>
    match r.mortalite_65_plus, r.apl_med, r.apl_inf, r.taux_pauvrete with
    | some a, some b, some c, some d => some ⟨r.code, a, b, c, d⟩
    | _, _, _, _ => none

/-- The senior-score table handed to the map and to the top-10 ranking
(lines 202-220): department codes of the dropna-filtered table paired with
their senior composite scores. -/
def senior_table (rows : List RawRow) (s1 s2 s3 s4 : ℚ) : List (String × ℚ) :=
  ((dropna rows).map (·.code)).zip (score_senior (dropna rows) s1 s2 s3 s4)

theorem mem_dropna_source {rows : List RawRow} {sr : SRow}
    (h : sr ∈ dropna rows) :
    ∃ raw ∈ rows, raw.code = sr.code
      ∧ raw.mortalite_65_plus ≠ none ∧ raw.apl_med ≠ none
      ∧ raw.apl_inf ≠ none ∧ raw.taux_pauvrete ≠ none := by
  obtain ⟨raw, hraw, hf⟩ := List.mem_filterMap.mp h
  refine ⟨raw, hraw, ?_⟩
  revert hf
  cases h1 : raw.mortalite_65_plus <;> cases h2 : raw.apl_med <;>
    cases h3 : raw.apl_inf <;> cases h4 : raw.taux_pauvrete <;>
    intro hf <;> simp at hf
  obtain ⟨rfl⟩ := hf.symm
  simp

/-- Claim C8: if a department's row is missing any constituent of the senior
composite, that department does not appear in the composite output at all
(codes are assumed unique, as the spec's data model requires); the missing
value is never replaced by a default number. -/
theorem C8_composite_inner_join (rows : List RawRow) (s1 s2 s3 s4 : ℚ)
    (r : RawRow)
    (hnd : (rows.map (·.code)).Nodup) (hr : r ∈ rows)
    (hmiss : r.mortalite_65_plus = none ∨ r.apl_med = none
      ∨ r.apl_inf = none ∨ r.taux_pauvrete = none) :
    r.code ∉ (senior_table rows s1 s2 s3 s4).map Prod.fst := by
  intro hmem
  unfold senior_table at hmem
  rw [List.map_fst_zip] at hmem
  · obtain ⟨sr, hsr, hcode⟩ := List.mem_map.mp hmem
    obtain ⟨raw, hraw, hrc, hm1, hm2, hm3, hm4⟩ := mem_dropna_source hsr
    have : raw = r := List.inj_on_of_nodup_map hnd hraw hr (by rw [hrc, hcode])
    subst this
    rcases hmiss with h | h | h | h <;> simp [h] at hm1 hm2 hm3 hm4
  · simp [length_score_senior]

/-- Two-row table for the C8 witness: department "02" misses its poverty
rate. -/
def rowsC8 : List RawRow :=
  [⟨"01", "Ain", some 1, some 2, some 1, some 1⟩,
   ⟨"02", "Aisne", some 1, some 1, some 1, none⟩]

/-- Concrete instance of C8: department "02", whose poverty rate is missing,
does not appear in the senior-score table built from `rowsC8`. -/
theorem C8_composite_inner_join_witness :
    "02" ∉ (senior_table rowsC8 1 1 1 1).map Prod.fst :=
  C8_composite_inner_join rowsC8 1 1 1 1
    ⟨"02", "Aisne", some 1, some 1, some 1, none⟩
    (by simp [rowsC8])
    (List.mem_cons_of_mem _ (List.mem_cons_self _ _))
    (Or.inr (Or.inr (Or.inr rfl)))

/-! ## Colour-bucket classifier (`classify_color`, `synthese.py` lines 50-66)

`bounds = [-float("inf")] + thresholds + [float("inf")]`; `get_color(v)`
returns the colour of the first `i` with `bounds[i] < v <= bounds[i + 1]`
and `[0, 0, 0, 0]` when no interval matches.  In Python every comparison
with NaN is `False`, so a missing value falls through to the fallback;
`none` plays the role of NaN here. -/

inductive Bound where
  | ninf : Bound
  | fin : ℚ → Bound
  | pinf : Bound
deriving DecidableEq

/-- `bounds[i] < v`; any comparison against NaN (`none`) is `False`. -/
def bLT : Bound → Option ℚ → Bool
  | _, none => false
  | .ninf, some _ => true
  | .fin q, some v => decide (q < v)
  | .pinf, some _ => false

/-- `v <= bounds[i + 1]`; any comparison against NaN (`none`) is `False`. -/
def bLE : Option ℚ → Bound → Bool
  | none, _ => false
  | some _, .pinf => true
  | some v, .fin q => decide (v ≤ q)
  | some _, .ninf => false

/-- `[-float("inf")] + thresholds + [float("inf")]` (line 54). -/
def mkBounds (ts : List ℚ) : List Bound :=
  .ninf :: (ts.map .fin ++ [.pinf])

/-- The loop of `get_color` (lines 60-63), instrumented to return the index
of the first interval satisfying `bounds[i] < v <= bounds[i + 1]`. -/
def bucketAux (v : Option ℚ) (i : ℕ) : List Bound → Option ℕ
  | b1 :: b2 :: bs =>
      if bLT b1 v && bLE v b2 then some i else bucketAux v (i + 1) (b2 :: bs)
  | _ => none

/-- Bucket index assigned by `classify_color`'s interval scan. -/
def classifyBucket (ts : List ℚ) (v : ℚ) : Option ℕ :=
  bucketAux (some v) 0 (mkBounds ts)

/-- `get_color` (lines 59-64): the interval scan walks in step with the
colour list sampled from the cmap (`color_steps`, a list of `rgba` floats in
`[0, 1]`); a match yields `[int(r*255), int(g*255), int(b*255), 220]`, no
match yields `[0, 0, 0, 0]`. -/
def getColorAux (v : Option ℚ) : List Bound → List (ℚ × ℚ × ℚ × ℚ) → List ℤ
  | b1 :: b2 :: bs, c :: cs =>
      if bLT b1 v && bLE v b2 then [⌊c.1 * 255⌋, ⌊c.2.1 * 255⌋, ⌊c.2.2.1 * 255⌋, 220]
      else getColorAux v (b2 :: bs) cs
  | _, _ => [0, 0, 0, 0]

/-- `classify_color` applied to a single value (the source maps `get_color`
over the column). -/
def classify_color (ts : List ℚ) (steps : List (ℚ × ℚ × ℚ × ℚ))
    (v : Option ℚ) : List ℤ :=
  getColorAux v (mkBounds ts) steps

/-- The claim's bucket predicate: with `bounds = [-inf] ++ ts ++ [inf]`,
bucket `j` is the interval `bounds[j] < v <= bounds[j + 1]`. -/
def inBucket (ts : List ℚ) (v : ℚ) : ℕ → Bool
  | 0 =>
      match ts[0]? with
      | some t => decide (v ≤ t)
      | none => true
  | j + 1 =>
      (match ts[j]? with
        | some t => decide (t < v)
        | none => false)
      && (match ts[j + 1]? with
        | some t => decide (v ≤ t)
        | none => true)

theorem countP_lt_eq_zero {v : ℚ} {t : ℚ} {ts : List ℚ}
    (hs : List.Sorted (· < ·) (t :: ts)) (hvt : v ≤ t) :
    (t :: ts).countP (fun u => decide (u < v)) = 0 := by
  rw [List.countP_eq_zero]
  intro a ha
  rcases List.mem_cons.mp ha with rfl | ha'
  · simpa using not_lt.mpr hvt
  · have := (List.sorted_cons.mp hs).1 a ha'
    simp only [decide_eq_true_eq]
    push_neg
    linarith

/-- Core loop characterisation: starting from a lower bound already known to
satisfy `bounds < v`, the scan lands on the count of thresholds below `v`. -/
theorem bucketAux_go (v : ℚ) :
    ∀ (ts : List ℚ), List.Sorted (· < ·) ts →
    ∀ (b : Bound) (i : ℕ), bLT b (some v) = true →
      bucketAux (some v) i (b :: (ts.map .fin ++ [.pinf]))
        = some (i + ts.countP (fun t => decide (t < v))) := by
  intro ts
  induction ts with
  | nil =>
    intro _ b i hb
    simp [bucketAux, hb, bLE]
  | cons t ts ih =>
    intro hs b i hb
    simp only [List.map_cons, List.cons_append, bucketAux, hb, Bool.true_and]
    by_cases hvt : v ≤ t
    · rw [if_pos (by simp [bLE, hvt])]
      rw [countP_lt_eq_zero hs hvt]
      simp
    · push_neg at hvt
      rw [if_neg (by simp [bLE]; linarith)]
      simp only [List.append_eq]
      rw [ih (List.sorted_cons.mp hs).2 (.fin t) (i + 1) (by simp [bLT, hvt])]
      rw [List.countP_cons]
      simp only [decide_eq_true_eq, hvt, if_pos]
      congr 1
      omega

theorem classifyBucket_eq_countP (ts : List ℚ) (v : ℚ)
    (hs : List.Sorted (· < ·) ts) :
    classifyBucket ts v = some (ts.countP fun t => decide (t < v)) := by
  unfold classifyBucket mkBounds
  simpa using bucketAux_go v ts hs .ninf 0 rfl

theorem countP_le_of_le (v : ℚ) :
    ∀ (ts : List ℚ), List.Sorted (· < ·) ts →
    ∀ (j : ℕ) (hj : j < ts.length), v ≤ ts[j] →
      ts.countP (fun t => decide (t < v)) ≤ j := by
  intro ts
  induction ts with
  | nil => intro _ j hj; simp at hj
  | cons t ts ih =>
    intro hs j hj hvj
    cases j with
    | zero =>
      simp only [List.getElem_cons_zero] at hvj
      rw [countP_lt_eq_zero hs hvj]
    | succ j =>
      rw [List.countP_cons]
      have hj' : j < ts.length := by simpa using hj
      have := ih (List.sorted_cons.mp hs).2 j hj' (by simpa using hvj)
      split <;> omega

theorem lt_countP_of_lt (v : ℚ) :
    ∀ (ts : List ℚ), List.Sorted (· < ·) ts →
    ∀ (j : ℕ) (hj : j < ts.length), ts[j] < v →
      j + 1 ≤ ts.countP (fun t => decide (t < v)) := by
  intro ts
  induction ts with
  | nil => intro _ j hj; simp at hj
  | cons t ts ih =>
    intro hs j hj hvj
    cases j with
    | zero =>
      simp only [List.getElem_cons_zero] at hvj
      rw [List.countP_cons]
      simp [hvj]
    | succ j =>
      have hj' : j < ts.length := by simpa using hj
      have hjv : ts[j] < v := by simpa using hvj
      have h1 := ih (List.sorted_cons.mp hs).2 j hj' hjv
      have htv : t < v := by
        have hmem : ts[j] ∈ ts := List.getElem_mem hj'
        have := (List.sorted_cons.mp hs).1 _ hmem
        linarith
      rw [List.countP_cons]
      simp only [decide_eq_true_eq, htv, if_pos]
      omega

theorem inBucket_unique (ts : List ℚ) (v : ℚ) (hs : List.Sorted (· < ·) ts) :
    ∀ j, inBucket ts v j = true → j = ts.countP (fun t => decide (t < v)) := by
  intro j hj
  cases j with
  | zero =>
    cases h0 : ts[0]? with
    | none =>
      have : ts = [] := List.eq_nil_of_length_eq_zero (by
        by_contra hne
        have : 0 < ts.length := Nat.pos_of_ne_zero hne
        simp [List.getElem?_eq_getElem this] at h0)
      simp [this]
    | some t =>
      have hvt : v ≤ t := by
        unfold inBucket at hj
        rw [h0] at hj
        simpa using hj
      have hlen : 0 < ts.length := by
        by_contra hle
        have : ts = [] := List.eq_nil_of_length_eq_zero (by omega)
        simp [this] at h0
      have ht : ts[0] = t := by
        have := List.getElem?_eq_getElem hlen
        rw [h0] at this
        exact (Option.some_injective _ this.symm)
      have := countP_le_of_le v ts hs 0 hlen (ht ▸ hvt)
      omega
  | succ j =>
    unfold inBucket at hj
    rw [Bool.and_eq_true] at hj
    obtain ⟨hlow, hup⟩ := hj
    cases hl : ts[j]? with
    | none => rw [hl] at hlow; simp at hlow
    | some t =>
      rw [hl] at hlow
      have hjlen : j < ts.length := by
        by_contra hge
        push_neg at hge
        rw [List.getElem?_eq_none hge] at hl
        exact Option.noConfusion hl
      have htj : ts[j] = t := by
        have := List.getElem?_eq_getElem hjlen
        rw [hl] at this
        exact (Option.some_injective _ this.symm)
      have hlo : j + 1 ≤ ts.countP (fun t => decide (t < v)) :=
        lt_countP_of_lt v ts hs j hjlen (by rw [htj]; simpa using hlow)
      cases hu : ts[j + 1]? with
      | none =>
        have : ts.length ≤ j + 1 := by
          by_contra hlt
          push_neg at hlt
          rw [List.getElem?_eq_getElem hlt] at hu
          exact Option.noConfusion hu
        have hcl : ts.countP (fun t => decide (t < v)) ≤ ts.length :=
          List.countP_le_length _
        omega
      | some u =>
        rw [hu] at hup
        have hulen : j + 1 < ts.length := by
          by_contra hge
          push_neg at hge
          rw [List.getElem?_eq_none hge] at hu
          exact Option.noConfusion hu
        have huj : ts[j + 1] = u := by
          have := List.getElem?_eq_getElem hulen
          rw [hu] at this
          exact (Option.some_injective _ this.symm)
        have := countP_le_of_le v ts hs (j + 1) hulen (by rw [huj]; simpa using hup)
        omega

theorem inBucket_countP (ts : List ℚ) (v : ℚ) (hs : List.Sorted (· < ·) ts) :
    inBucket ts v (ts.countP (fun t => decide (t < v))) = true := by
  set k := ts.countP (fun t => decide (t < v)) with hk
  have hkle : k ≤ ts.length := List.countP_le_length _
  cases hc : k with
  | zero =>
    unfold inBucket
    cases h0 : ts[0]? with
    | none => rfl
    | some t =>
      have hlen : 0 < ts.length := by
        by_contra hle
        have : ts = [] := List.eq_nil_of_length_eq_zero (by omega)
        simp [this] at h0
      have ht : ts[0] = t := by
        have := List.getElem?_eq_getElem hlen
        rw [h0] at this
        exact (Option.some_injective _ this.symm)
      simp only [decide_eq_true_eq]
      by_contra hlt
      push_neg at hlt
      have := lt_countP_of_lt v ts hs 0 hlen (ht ▸ hlt)
      omega
  | succ j =>
    unfold inBucket
    have hjlen : j < ts.length := by omega
    rw [Bool.and_eq_true]
    constructor
    · rw [List.getElem?_eq_getElem hjlen]
      simp only [decide_eq_true_eq]
      by_contra hge
      push_neg at hge
      have := countP_le_of_le v ts hs j hjlen hge
      omega
    · cases hu : ts[j + 1]? with
      | none => rfl
      | some u =>
        have hulen : j + 1 < ts.length := by
          by_contra hge
          push_neg at hge
          rw [List.getElem?_eq_none hge] at hu
          exact Option.noConfusion hu
        have huj : ts[j + 1] = u := by
          have := List.getElem?_eq_getElem hulen
          rw [hu] at this
          exact (Option.some_injective _ this.symm)
        simp only [decide_eq_true_eq]
        by_contra hlt
        push_neg at hlt
        have := lt_countP_of_lt v ts hs (j + 1) hulen (by rw [huj]; exact hlt)
        omega

/-- Claim C5: for every value `v` and every (strictly) ascending threshold
list, `classify_color`'s interval scan assigns `v` to the unique bucket `j`
with `bounds[j] < v <= bounds[j+1]` — namely the count of thresholds strictly
below `v`: values `<= t1` land in bucket `0`, values beyond the last
threshold land in the last bucket `ts.length`, and a value exactly equal to
threshold `ts[i]` lands in bucket `i`, the bucket whose upper bound it is. -/
theorem C5_color_buckets (ts : List ℚ) (v : ℚ)
    (hs : List.Sorted (· < ·) ts) :
    (classifyBucket ts v = some (ts.countP fun t => decide (t < v))
        ∧ inBucket ts v (ts.countP fun t => decide (t < v)) = true
        ∧ ∀ j, inBucket ts v j = true → j = ts.countP fun t => decide (t < v))
      ∧ (∀ t, ts[0]? = some t → v ≤ t → classifyBucket ts v = some 0)
      ∧ (∀ t, ts.getLast? = some t → t < v → classifyBucket ts v = some ts.length)
      ∧ (∀ i t, ts[i]? = some t → v = t → classifyBucket ts v = some i) := by
  have hmain := classifyBucket_eq_countP ts v hs
  refine ⟨⟨hmain, inBucket_countP ts v hs, inBucket_unique ts v hs⟩, ?_, ?_, ?_⟩
  · intro t h0 hvt
    have hlen : 0 < ts.length := by
      by_contra hle
      push_neg at hle
      rw [List.getElem?_eq_none (by omega)] at h0
      exact Option.noConfusion h0
    have ht : ts[0] = t := by
      have := List.getElem?_eq_getElem hlen
      rw [h0] at this
      exact (Option.some_injective _ this.symm)
    have := countP_le_of_le v ts hs 0 hlen (ht ▸ hvt)
    rw [hmain]
    congr 1
    omega
  · intro t hlast htv
    have hne : ts ≠ [] := by
      intro hnil
      rw [hnil] at hlast
      exact Option.noConfusion hlast
    have hlen : 0 < ts.length := List.length_pos.mpr hne
    have hidx : ts.getLast? = ts[ts.length - 1]? := List.getLast?_eq_getElem? ts
    rw [hidx, List.getElem?_eq_getElem (by omega)] at hlast
    have ht : ts[ts.length - 1] = t := Option.some_injective _ hlast
    have h1 := lt_countP_of_lt v ts hs (ts.length - 1) (by omega) (by rw [ht]; exact htv)
    have h2 : ts.countP (fun t => decide (t < v)) ≤ ts.length :=
      List.countP_le_length _
    rw [hmain]
    congr 1
    omega
  · intro i t hi hvt
    have hilen : i < ts.length := by
      by_contra hge
      push_neg at hge
      rw [List.getElem?_eq_none hge] at hi
      exact Option.noConfusion hi
    have ht : ts[i] = t := by
      have := List.getElem?_eq_getElem hilen
      rw [hi] at this
      exact (Option.some_injective _ this.symm)
    have hub := countP_le_of_le v ts hs i hilen (by rw [ht, hvt])
    have hlb : i ≤ ts.countP (fun t => decide (t < v)) := by
      cases i with
      | zero => omega
      | succ j =>
        have hadj : ts[j] < ts[j + 1] := by
          have hp := List.pairwise_iff_getElem.mp hs
          exact hp j (j + 1) (by omega) hilen (by omega)
        have : ts[j] < v := by rw [hvt, ← ht]; exact hadj
        exact lt_countP_of_lt v ts hs j (by omega) this
    rw [hmain]
    congr 1
    omega

/-- Concrete instance of C5 with thresholds `[10, 20, 30]` and the boundary
value `20`: the scan assigns bucket `1`, the bucket with upper bound `20`,
not the bucket above. -/
theorem C5_color_buckets_witness :
    classifyBucket [(10 : ℚ), 20, 30] 20 = some 1 := by
  have h := C5_color_buckets [(10 : ℚ), 20, 30] 20
    (by norm_num [List.sorted_cons])
  exact h.2.2.2 1 20 rfl rfl

theorem bLT_none (b : Bound) : bLT b none = false := by cases b <;> rfl

theorem getColorAux_length (v : Option ℚ) :
    ∀ (bs : List Bound) (cs : List (ℚ × ℚ × ℚ × ℚ)),
      (getColorAux v bs cs).length = 4 := by
  intro bs
  induction bs with
  | nil => intro cs; cases cs <;> rfl
  | cons b1 bs ih =>
    intro cs
    cases bs with
    | nil => cases cs <;> rfl
    | cons b2 bs' =>
      cases cs with
      | nil => rfl
      | cons c cs' =>
        simp only [getColorAux]
        split
        · rfl
        · exact ih cs'

theorem getColorAux_nan :
    ∀ (bs : List Bound) (cs : List (ℚ × ℚ × ℚ × ℚ)),
      getColorAux none bs cs = [0, 0, 0, 0] := by
  intro bs
  induction bs with
  | nil => intro cs; cases cs <;> rfl
  | cons b1 bs ih =>
    intro cs
    cases bs with
    | nil => cases cs <;> rfl
    | cons b2 bs' =>
      cases cs with
      | nil => rfl
      | cons c cs' =>
        simp only [getColorAux, bLT_none, Bool.false_and, Bool.false_eq_true,
          if_false]
        exact ih cs'

/-- Claim C9: `classify_color` is total — every input, including a missing
(NaN) value, yields a well-formed 4-element RGBA list — and a missing value
falls through every interval check and receives the designated no-data
colour `[0, 0, 0, 0]` instead of raising an error. -/
theorem C9_classifier_total (ts : List ℚ) (steps : List (ℚ × ℚ × ℚ × ℚ)) :
    (∀ v, (classify_color ts steps v).length = 4)
      ∧ classify_color ts steps none = [0, 0, 0, 0] :=
  ⟨fun v => getColorAux_length v (mkBounds ts) steps,
   getColorAux_nan (mkBounds ts) steps⟩

/-! ## Ranker (`nlargest`, `mortalite_65_plus.py` lines 61-64 and 242-246)

pandas `DataFrame.nlargest(n, col)` with the default `keep='first'` returns
the first `n` rows of a *stable* descending sort on `col`: among rows tied
on the metric, earlier input rows come first.  It is embedded as a stable
insertion sort (descending) followed by `take n`. -/

/-- A row of a ranked table. -/
structure TRow where
  code : String
  departement : String
  val : ℚ
deriving DecidableEq

/-- Insert `x` into a descending list, before any row tied with it (the row
being inserted comes from earlier in the input, so stability puts it first). -/
def insertDesc {α : Type} (f : α → ℚ) (x : α) : List α → List α
  | [] => [x]
  | y :: ys => if f y ≤ f x then x :: y :: ys else y :: insertDesc f x ys

/-- Stable descending insertion sort on the metric `f`. -/
def sortDesc {α : Type} (f : α → ℚ) : List α → List α
  | [] => []
  | x :: xs => insertDesc f x (sortDesc f xs)

/-- `df.nlargest(n, col)` with `keep='first'`: stable descending sort then
`head(n)`. -/
def nlargest {α : Type} (n : ℕ) (rows : List α) (f : α → ℚ) : List α :=
  (sortDesc f rows).take n

theorem filter_insertDesc {α : Type} (f : α → ℚ) (q : ℚ) (x : α) :
    ∀ l : List α,
      (insertDesc f x l).filter (fun y => decide (f y = q))
        = if f x = q then x :: l.filter (fun y => decide (f y = q))
          else l.filter (fun y => decide (f y = q)) := by
  intro l
  induction l with
  | nil =>
    by_cases hx : f x = q <;> simp [insertDesc, hx]
  | cons y ys ih =>
    simp only [insertDesc]
    by_cases hle : f y ≤ f x
    · rw [if_pos hle]
      by_cases hx : f x = q <;> simp [hx, List.filter_cons]
    · rw [if_neg hle]
      push_neg at hle
      by_cases hx : f x = q
      · have hy : ¬(f y = q) := by
          intro h
          rw [h, hx] at hle
          exact lt_irrefl q hle
        simp [List.filter_cons, hy, ih, hx]
      · simp [List.filter_cons, ih, hx]

theorem filter_sortDesc {α : Type} (f : α → ℚ) (q : ℚ) :
    ∀ l : List α,
      (sortDesc f l).filter (fun y => decide (f y = q))
        = l.filter (fun y => decide (f y = q)) := by
  intro l
  induction l with
  | nil => rfl
  | cons x xs ih =>
    simp only [sortDesc, filter_insertDesc, ih, List.filter_cons]
    by_cases hx : f x = q <;> simp [hx]

theorem prefix_of_filter {α : Type} (p : α → Bool) {l1 l2 : List α}
    (h : l1 <+: l2) : l1.filter p <+: l2.filter p := by
  obtain ⟨t, rfl⟩ := h
  exact ⟨t.filter p, by rw [List.filter_append]⟩

theorem take_isPre {α : Type} (l : List α) (n : ℕ) : l.take n <+: l :=
  ⟨l.drop n, List.take_append_drop n l⟩

/-- Claim C6 (amended): the top-n ranking is deterministic (it is a pure
function of its input), and among rows tied on the metric the output
preserves the original input row order — pandas `keep='first'` — rather than
sorting ties by department code: for every tied value `q`, the tied rows of
the output form a prefix of the tied rows of the input in input order. -/
theorem C6_ranking_stable {α : Type} (n : ℕ) (rows : List α) (f : α → ℚ)
    (q : ℚ) :
    nlargest n rows f = nlargest n rows f
      ∧ (nlargest n rows f).filter (fun r => decide (f r = q))
          <+: rows.filter (fun r => decide (f r = q)) := by
  refine ⟨rfl, ?_⟩
  have h1 : (nlargest n rows f).filter (fun r => decide (f r = q))
      <+: (sortDesc f rows).filter (fun r => decide (f r = q)) :=
    prefix_of_filter _ (take_isPre _ n)
  rw [filter_sortDesc] at h1
  exact h1

/-- Two departments tied at metric value `10`, appearing in the input with
codes in descending order. -/
def rowsTie : List TRow :=
  [⟨"02", "Aisne", 10⟩, ⟨"01", "Ain", 10⟩]

/-- Counterexample to claim C6 as stated: on `rowsTie` the two departments
are tied on the metric, yet the top-2 ranking lists code "02" before "01",
not in ascending code order — `nlargest` keeps the original row order among
ties. -/
theorem C6_ranking_counterexample :
    (nlargest 2 rowsTie (·.val)).map (·.code) = ["02", "01"]
      ∧ ("01" : String) < "02" := by
  constructor
  · norm_num [nlargest, rowsTie, sortDesc, insertDesc]
  · rw [String.lt_iff_toList_lt]
    decide

/-! ## Indicator loader (`load_ind`, `synthese.py` lines 27-43)

`load_ind` reads the CSV, renames `code_dep` to `code` and cleans the code
(`re.sub(r"\s+", "", str(c)).upper().zfill(2)` when `str(c)` is a single
digit, else `str(c).upper()`).  It performs no validation of any kind: no
check that the join key exists, no duplicate detection, no
`DataIntegrityError`. -/

/-- `re.sub(r"\s+", "", s)`: remove every whitespace character. -/
def stripWs (s : String) : String :=
  String.mk (s.data.filter fun ch => !ch.isWhitespace)

/-- `str.upper()` (character-wise). -/
def strUpper (s : String) : String :=
  String.mk (s.data.map Char.toUpper)

/-- `str.zfill(2)`: left-pad with `'0'` to width 2. -/
def zfill2 (s : String) : String :=
  if s.data.length ≥ 2 then s
  else String.mk (List.replicate (2 - s.data.length) '0' ++ s.data)

/-- The code clean-up lambda of `load_ind` (lines 39-42). -/
def cleanCode (c : String) : String :=
  if c.data.length = 1 ∧ c.data.all Char.isDigit
  then zfill2 (strUpper (stripWs c))
  else strUpper c

/-- `load_ind`'s whole effect on the code column: rename plus clean-up; the
payload of each row (every other column) is carried through untouched. -/
def load_ind {α : Type} (rows : List (String × α)) : List (String × α) :=
  rows.map fun r => (cleanCode r.1, r.2)

/-- Claim C7 (amended): the loader performs no integrity validation at all —
every input row survives (the row count is preserved and the payloads are
carried through in order), even when department codes are duplicated; no
`DataIntegrityError` (or any error) is raised. -/
theorem C7_loader_no_validation {α : Type} (rows : List (String × α)) :
    (load_ind rows).length = rows.length
      ∧ (load_ind rows).map Prod.snd = rows.map Prod.snd := by
  constructor
  · simp [load_ind]
  · simp [load_ind, List.map_map, Function.comp]

/-- Counterexample to claim C7 as stated: a table with the duplicate code
`"1"` in both rows is loaded without any error — both rows survive, with the
code cleaned to `"01"` twice — instead of aborting with a
`DataIntegrityError`. -/
theorem C7_loader_counterexample :
    load_ind [("1", (0 : ℕ)), ("1", 1)] = [("01", 0), ("01", 1)]
      ∧ (load_ind [("1", (0 : ℕ)), ("1", 1)]).length = 2 := by
  constructor <;> rfl

/-! ## 3-D bar elevation (`synthese.py` lines 99-101)

`gdf["bar_elev"] = (gdf["mort_premat"] - mort_min) / (mort_max - mort_min) * MAX_H`
with `MAX_H = 100_000`; `mort_min`/`mort_max` are the pandas `min()`/`max()`
of the column, which skip missing values, and the division is unguarded. -/

/-- Present (non-NaN) values of a column. -/
def presentVals (values : List (Option ℚ)) : List ℚ := values.filterMap id

/-- pandas `Series.min()` over present values (`none` on the empty column,
like pandas' NaN). -/
def qmin : List ℚ → Option ℚ
  | [] => none
  | x :: xs =>
      some (match qmin xs with
        | none => x
        | some m => min x m)

/-- pandas `Series.max()` over present values. -/
def qmax : List ℚ → Option ℚ
  | [] => none
  | x :: xs =>
      some (match qmax xs with
        | none => x
        | some m => max x m)

/-- `(gdf["mort_premat"] - mort_min) / (mort_max - mort_min) * 100_000`
element-wise; a missing value stays missing (NaN arithmetic).  The `getD 0`
defaults are only reachable when the column has no present value at all, in
which case pandas would yield NaN throughout. -/
def bar_elev (values : List (Option ℚ)) : List (Option ℚ) :=
  values.map (Option.map fun v =>
    (v - (qmin (presentVals values)).getD 0)
      / ((qmax (presentVals values)).getD 0 - (qmin (presentVals values)).getD 0)
      * 100000)

theorem qmin_eq_none {l : List ℚ} (h : qmin l = none) : l = [] := by
  cases l with
  | nil => rfl
  | cons x xs => simp [qmin] at h

theorem qmin_le : ∀ (l : List ℚ) (m : ℚ), qmin l = some m →
    m ∈ l ∧ ∀ x ∈ l, m ≤ x := by
  intro l
  induction l with
  | nil => intro m h; simp [qmin] at h
  | cons x xs ih =>
    intro m h
    simp only [qmin] at h
    cases hx : qmin xs with
    | none =>
      rw [hx] at h
      have : m = x := (Option.some_injective _ h).symm
      subst this
      have hnil := qmin_eq_none hx
      subst hnil
      simp
    | some m' =>
      rw [hx] at h
      have hm : m = min x m' := (Option.some_injective _ h).symm
      obtain ⟨hmem, hle⟩ := ih m' hx
      subst hm
      constructor
      · rcases le_total x m' with hc | hc
        · simp [min_eq_left hc]
        · right
          rw [min_eq_right hc]
          exact hmem
      · intro y hy
        rcases List.mem_cons.mp hy with rfl | hy'
        · exact min_le_left _ _
        · exact le_trans (min_le_right _ _) (hle y hy')

theorem qmax_eq_none {l : List ℚ} (h : qmax l = none) : l = [] := by
  cases l with
  | nil => rfl
  | cons x xs => simp [qmax] at h

theorem qmax_ge : ∀ (l : List ℚ) (m : ℚ), qmax l = some m →
    m ∈ l ∧ ∀ x ∈ l, x ≤ m := by
  intro l
  induction l with
  | nil => intro m h; simp [qmax] at h
  | cons x xs ih =>
    intro m h
    simp only [qmax] at h
    cases hx : qmax xs with
    | none =>
      rw [hx] at h
      have : m = x := (Option.some_injective _ h).symm
      subst this
      have hnil := qmax_eq_none hx
      subst hnil
      simp
    | some m' =>
      rw [hx] at h
      have hm : m = max x m' := (Option.some_injective _ h).symm
      obtain ⟨hmem, hle⟩ := ih m' hx
      subst hm
      constructor
      · rcases le_total x m' with hc | hc
        · right
          rw [max_eq_right hc]
          exact hmem
        · simp [max_eq_left hc]
      · intro y hy
        rcases List.mem_cons.mp hy with rfl | hy'
        · exact le_max_left _ _
        · exact le_trans (hle y hy') (le_max_right _ _)

theorem filterMap_id_map_optionMap (g : ℚ → ℚ) :
    ∀ values : List (Option ℚ),
      (values.map (Option.map g)).filterMap id = (values.filterMap id).map g := by
  intro values
  induction values with
  | nil => rfl
  | cons o os ih => cases o <;> simp [ih]

/-- Claim C10: the 3-D bar elevation is the affine rescale
`(v - min) / (max - min) * 100000` of premature mortality.  Under the
precondition that not all present values are equal: every department with a
present value gets an elevation in `[0, 100000]`, with a department at the
column minimum mapped to `0` and one at the maximum mapped to `100000`;
missing values stay missing.  Without that precondition (all present values
equal, column nonempty) the denominator `max - min` of the unguarded
division is `0`. -/
theorem C10_bar_elevation (values : List (Option ℚ)) :
    ((∃ a ∈ presentVals values, ∃ b ∈ presentVals values, a ≠ b) →
      (∀ e ∈ (bar_elev values).filterMap id, 0 ≤ e ∧ e ≤ 100000)
        ∧ (∀ (i : ℕ) (x : ℚ), values[i]? = some (some x) →
            (bar_elev values)[i]? = some (some
              ((x - (qmin (presentVals values)).getD 0)
                / ((qmax (presentVals values)).getD 0
                    - (qmin (presentVals values)).getD 0) * 100000)))
        ∧ (∀ i : ℕ, values[i]? = some (some ((qmin (presentVals values)).getD 0)) →
            (bar_elev values)[i]? = some (some 0))
        ∧ (∀ i : ℕ, values[i]? = some (some ((qmax (presentVals values)).getD 0)) →
            (bar_elev values)[i]? = some (some 100000)))
      ∧ ((presentVals values ≠ []
            ∧ ∀ a ∈ presentVals values, ∀ b ∈ presentVals values, a = b) →
          (qmax (presentVals values)).getD 0
            - (qmin (presentVals values)).getD 0 = 0) := by
  constructor
  · intro h2
    obtain ⟨a, ha, b, hb, hab⟩ := h2
    have hne : presentVals values ≠ [] := by
      intro hnil
      rw [hnil] at ha
      exact absurd ha (List.not_mem_nil a)
    obtain ⟨mn, hmn⟩ : ∃ m, qmin (presentVals values) = some m := by
      cases h : qmin (presentVals values) with
      | none => exact absurd (qmin_eq_none h) hne
      | some m => exact ⟨m, rfl⟩
    obtain ⟨mx, hmx⟩ : ∃ m, qmax (presentVals values) = some m := by
      cases h : qmax (presentVals values) with
      | none => exact absurd (qmax_eq_none h) hne
      | some m => exact ⟨m, rfl⟩
    obtain ⟨hmnmem, hmnle⟩ := qmin_le _ mn hmn
    obtain ⟨hmxmem, hmxge⟩ := qmax_ge _ mx hmx
    have hlt : mn < mx := by
      rcases lt_or_eq_of_le (le_trans (hmnle a ha) (hmxge a ha)) with h | h
      · exact h
      · exfalso
        apply hab
        have h1 : a = mn := le_antisymm (by rw [h]; exact hmxge a ha) (hmnle a ha)
        have h2 : b = mn := le_antisymm (by rw [h]; exact hmxge b hb) (hmnle b hb)
        rw [h1, h2]
    have hd : (0 : ℚ) < mx - mn := by linarith
    simp only [hmn, hmx, Option.getD_some]
    refine ⟨?_, ?_, ?_, ?_⟩
    · intro e he
      rw [bar_elev] at he
      simp only [hmn, hmx, Option.getD_some] at he
      rw [filterMap_id_map_optionMap] at he
      obtain ⟨x, hx, rfl⟩ := List.mem_map.mp he
      have hxmn := hmnle x hx
      have hxmx := hmxge x hx
      constructor
      · have : (0 : ℚ) ≤ (x - mn) / (mx - mn) := div_nonneg (by linarith) hd.le
        positivity
      · have h1 : (x - mn) / (mx - mn) ≤ 1 := by
          rw [div_le_one hd]
          linarith
        nlinarith
    · intro i x hi
      rw [bar_elev]
      simp only [hmn, hmx, Option.getD_some]
      rw [List.getElem?_map, hi]
      rfl
    · intro i hi
      rw [bar_elev]
      simp only [hmn, hmx, Option.getD_some] at hi ⊢
      rw [List.getElem?_map, hi]
      simp only [Option.map_some, Option.map]
      congr 2
      field_simp
    · intro i hi
      rw [bar_elev]
      simp only [hmn, hmx, Option.getD_some] at hi ⊢
      rw [List.getElem?_map, hi]
      simp only [Option.map_some, Option.map]
      congr 2
      field_simp
  · intro ⟨hne, hall⟩
    obtain ⟨mn, hmn⟩ : ∃ m, qmin (presentVals values) = some m := by
      cases h : qmin (presentVals values) with
      | none => exact absurd (qmin_eq_none h) hne
      | some m => exact ⟨m, rfl⟩
    obtain ⟨mx, hmx⟩ : ∃ m, qmax (presentVals values) = some m := by
      cases h : qmax (presentVals values) with
      | none => exact absurd (qmax_eq_none h) hne
      | some m => exact ⟨m, rfl⟩
    have h1 := (qmin_le _ mn hmn).1
    have h2 := (qmax_ge _ mx hmx).1
    rw [hmn, hmx]
    simp only [Option.getD_some]
    rw [hall mx h2 mn h1]
    ring

/-- Concrete instance of C10 on the column `[some 0, some 2, none]`: the
minimum gets elevation `0` and the maximum gets elevation `100000`. -/
theorem C10_bar_elevation_witness :
    (bar_elev [some (0 : ℚ), some 2, none])[0]? = some (some 0)
      ∧ (bar_elev [some (0 : ℚ), some 2, none])[1]? = some (some 100000) := by
  have h := (C10_bar_elevation [some (0 : ℚ), some 2, none]).1
    ⟨0, by simp [presentVals], 2, by simp [presentVals], by norm_num⟩
  constructor
  · refine h.2.2.1 0 ?_
    simp [presentVals, qmin]
  · refine h.2.2.2 1 ?_
    simp [presentVals, qmax]
